import Mathlib

/-!
Verification of the query-evaluation core of `crates/store/src/query/filter.rs`
(Stalwart mail server): the boolean filter evaluator (`Store::filter`) and the
range-scan leaf resolver (`Store::range_to_bitmap`).

Document-id bitmaps (`RoaringBitmap`) are modelled as `Finset Nat`; binary keys
as `List Nat` of byte values; fallible storage operations as `Except Error`.
The storage collaborator (get_bitmap / get_bitmaps_intersection / iterate) is
an oracle packaged in `StoreModel`.
-/

namespace StoreQuery

open scoped symmDiff

/-- Bitmap of 32-bit document ids (`roaring::RoaringBitmap`), as a finite set. -/
abbrev Bitmap := Finset Nat

/-- Errors of `crate::Error` visible in this core: `InternalError` (corruption)
and storage-collaborator I/O failures (spec §7 StorageIO). -/
inductive Error where
  | InternalError (msg : String)
  | StorageError (msg : String)
deriving DecidableEq

/-- `Operator` from `store::query` (total order comparison on byte strings). -/
inductive Operator where
  | LowerThan
  | LowerEqualThan
  | GreaterThan
  | GreaterEqualThan
  | Equal
deriving DecidableEq

/-- `Filter` from `store::query`: leaves plus scope tokens of the flattened
boolean expression. The opaque `InBitmap` class descriptor is reduced to a
`Nat` identifier; `HasText` carries the raw text. -/
inductive Filter where
  | MatchValue (field : Nat) (op : Operator) (value : List Nat)
  | HasText (field : Nat) (text : String) (tokenize : Bool)
  | InBitmap (cls : Nat)
  | DocumentSet (set : Bitmap)
  | And
  | Or
  | Not
  | End
deriving DecidableEq

/-- Evaluator frame (`struct State { op: Filter, bm: Option<RoaringBitmap> }`). -/
structure State where
  op : Filter
  bm : Option Bitmap
deriving DecidableEq

/-- `ResultSet` returned by `Store::filter`. -/
structure ResultSet where
  account_id : Nat
  collection : Nat
  results : Bitmap
deriving DecidableEq

/-! ## Key codec (Modelled from the spec)

The key serialization lives in `crate::write::key`, which is not part of the
shown sources; only its callers are. Per spec §4.1/§6 a key for an indexed
value is the fixed-length prefix covering (account u32 big-endian, collection
u8, field u8), then the raw value bytes, then the document id as a fixed
4-byte big-endian suffix, and byte-lexicographic order on keys is the scan
order used by `iterate`. -/

/-- `U32_LEN`: width of the trailing big-endian document-id suffix. -/
def U32_LEN : Nat := 4

/-- `IndexKeyPrefix::len()`: account id (4 bytes) + collection (1) + field (1).
Modelled from the spec: fixed key prefix covering account, collection and
field identifiers (spec §6). -/
def indexKeyPreLen : Nat := 6

/-- Big-endian 4-byte encoding of a `u32`. Modelled from the spec:
"fixed trailing document-id width (4 bytes, big-endian)". -/
def be32 (n : Nat) : List Nat :=
  [n / 2 ^ 24 % 256, n / 2 ^ 16 % 256, n / 2 ^ 8 % 256, n % 256]

/-- `IndexKeyPrefix { account_id, collection, field }.serialize(0)`.
Modelled from the spec: prefix bytes ordering by (account, collection, field). -/
def serIndexKeyPre (account_id collection field : Nat) : List Nat :=
  be32 account_id ++ [collection % 256, field % 256]

/-- Serialization of `IndexKey { account_id, collection, document_id, field, key }`.
Modelled from the spec: ordering by (account, collection, field, value,
document_id), document id as big-endian 4-byte suffix (spec §4.1). -/
def serIndexKey (account_id collection document_id field : Nat) (key : List Nat) : List Nat :=
  serIndexKeyPre account_id collection field ++ key ++ be32 document_id

/-- Byte-string strict lexicographic order, as `Ord` on Rust `&[u8]`:
shorter strings precede their extensions. -/
def byteLt : List Nat → List Nat → Bool
  | [], [] => false
  | [], _ :: _ => true
  | _ :: _, [] => false
  | a :: as, b :: bs => if a < b then true else if b < a then false else byteLt as bs

/-- `key.starts_with(prefix)` on byte strings. -/
def startsWith : List Nat → List Nat → Bool
  | _, [] => true
  | [], _ :: _ => false
  | a :: as, b :: bs => a == b && startsWith as bs

/-- Rust `key.get(s..e)` on a byte slice: `some` of the sub-slice when
`s ≤ e ∧ e ≤ key.len()`, otherwise `none`. -/
def sliceGet (key : List Nat) (s e : Nat) : Option (List Nat) :=
  if s ≤ e ∧ e ≤ key.length then some ((key.drop s).take (e - s)) else none

/-- `DeserializeBigEndian::deserialize_be_u32(key, pos)`. Modelled from the
spec: recovers the trailing big-endian u32; "fails with a corruption error if
the key is shorter than the fixed trailing-ID width" (spec §4.1). -/
def deserializeBeU32 (key : List Nat) (pos : Nat) : Except Error Nat :=
  if pos + U32_LEN ≤ key.length then
    .ok (((key.drop pos).take U32_LEN).foldl (fun acc b => acc * 256 + b) 0)
  else
    .error (.InternalError "Failed to deserialize big-endian u32")

/-- The true byte-string comparison re-test performed per visited key
(`filter.rs` lines 295-301): `value OP match_value` with slice `Ord`. -/
def opCompare (op : Operator) (value match_value : List Nat) : Bool :=
  match op with
  | .LowerThan => byteLt value match_value
  | .LowerEqualThan => !byteLt match_value value
  | .GreaterThan => byteLt match_value value
  | .GreaterEqualThan => !byteLt value match_value
  | .Equal => value == match_value

/-- `u32::MAX`. -/
def u32MAX : Nat := 2 ^ 32 - 1

/-- The `[begin, end)` scan bounds constructed by `Store::range_to_bitmap`
(`filter.rs` lines 192-273), serialized. -/
def rangeBounds (account_id collection field : Nat) (match_value : List Nat)
    (op : Operator) : List Nat × List Nat :=
  match op with
  | .LowerThan =>
      (serIndexKey account_id collection 0 field [],
       serIndexKey account_id collection 0 field match_value)
  | .LowerEqualThan =>
      (serIndexKey account_id collection 0 field [],
       serIndexKey account_id collection u32MAX field match_value)
  | .GreaterThan =>
      (serIndexKey account_id collection u32MAX field match_value,
       serIndexKey account_id collection u32MAX (field + 1) [])
  | .GreaterEqualThan =>
      (serIndexKey account_id collection 0 field match_value,
       serIndexKey account_id collection u32MAX (field + 1) [])
  | .Equal =>
      (serIndexKey account_id collection 0 field match_value,
       serIndexKey account_id collection u32MAX field match_value)

/-- Ascending key iteration of the storage collaborator. Modelled from the
spec: `iterate(range, ascending, key_only)` visits the stored keys lying in
the half-open `[begin, end)` range in ascending order (spec §4.2, §6); the
store's key list is kept in its storage order, so ascending order is a
hypothesis (`List.Pairwise byteLt`) on the key list where needed. -/
def iterateRange (keys : List (List Nat)) (begin_ end_ : List Nat) : List (List Nat) :=
  keys.filter fun k => !byteLt k begin_ && byteLt k end_

/-- The per-key callback loop of `Store::range_to_bitmap` (`filter.rs` lines
283-309): stop (`Ok(false)`) when the key leaves the (account, collection,
field) key space; otherwise slice out the value bytes (corruption error when
the key cannot hold the trailing doc-id suffix), re-test them against the
operator, and collect the decoded document id on match. -/
def scanFold (pre match_value : List Nat) (op : Operator) :
    List (List Nat) → Bitmap → Except Error Bitmap
  | [], bm => .ok bm
  | key :: rest, bm =>
    if !startsWith key pre then
      .ok bm
    else
      let id_pos := key.length - U32_LEN
      match sliceGet key indexKeyPreLen id_pos with
      | none => .error (.InternalError "Invalid key found in index")
      | some value =>
        if opCompare op value match_value then
          match deserializeBeU32 key id_pos with
          | .error e => .error e
          | .ok id => scanFold pre match_value op rest (insert id bm)
        else
          scanFold pre match_value op rest bm

/-- `Store::range_to_bitmap` (`filter.rs` lines 184-317): build the scan
bounds, iterate the range ascending, fold the callback, and return `None`
for an empty result bitmap. -/
def rangeToBitmap (keys : List (List Nat)) (account_id collection field : Nat)
    (match_value : List Nat) (op : Operator) : Except Error (Option Bitmap) :=
  let bounds := rangeBounds account_id collection field match_value op
  let pre := serIndexKeyPre account_id collection field
  match scanFold pre match_value op (iterateRange keys bounds.1 bounds.2) ∅ with
  | .error e => .error e
  | .ok bm => .ok (if bm = ∅ then none else some bm)

/-! ## The store oracle and leaf resolution -/

/-- Oracle for the storage collaborator consumed by `Store::filter`:
the ordered binary key space scanned by `iterate`, plus the
`get_bitmap` / `get_bitmaps_intersection` postings lookups, keyed the way the
evaluator constructs `BitmapKey`s. `tokenizeWords` models the external
`WordTokenizer` composed with the `HashSet` deduplication. -/
structure StoreModel where
  keys : List (List Nat)
  documentIds : Nat → Nat → Except Error (Option Bitmap)
  textBitmap : Nat → Nat → Nat → String → Except Error (Option Bitmap)
  textIntersection : Nat → Nat → Nat → List String → Except Error (Option Bitmap)
  classBitmap : Nat → Nat → Nat → Except Error (Option Bitmap)
  tokenizeWords : String → List String

/-- Leaf resolution of `Store::filter` (`filter.rs` lines 69-105): dispatch a
leaf token to an optional bitmap. Scope tokens (`And`/`Or`/`Not`/`End`) are
handled by the evaluator loop before this function and never reach it; their
arm is dead. -/
def resolveLeaf (store : StoreModel) (account_id collection : Nat) :
    Filter → Except Error (Option Bitmap)
  | .MatchValue field op value => rangeToBitmap store.keys account_id collection field value op
  | .HasText field text tokenize =>
      if tokenize then
        store.textIntersection account_id collection field (store.tokenizeWords text)
      else
        store.textBitmap account_id collection field text
  | .InBitmap cls => store.classBitmap account_id collection cls
  | .DocumentSet set => .ok (some set)
  | _ => .ok none

/-! ## The boolean evaluator -/

/-- Lazy fetch of the NOT mask (`filter.rs` lines 122-129): the first time a
result is combined while the current scope is `Not`, fetch the universe
bitmap (all document ids of the account/collection), defaulting to empty.
The returned `Nat` counts universe fetches (for the laziness claims). -/
def fetchNotMask (store : StoreModel) (account_id collection : Nat) (op : Filter)
    (not_mask : Bitmap) (not_fetch : Bool) (fetches : Nat) :
    Except Error (Bitmap × Bool × Nat) :=
  if op = .Not ∧ not_fetch = false then
    match store.documentIds account_id collection with
    | .error e => .error e
    | .ok m => .ok (m.getD ∅, true, fetches + 1)
  else
    .ok (not_mask, not_fetch, fetches)

/-- The "apply logical operation" block (`filter.rs` lines 131-163): combine a
leaf result into the current frame's accumulator. The `_ => unreachable!()`
arm of the source (the frame op is always `And`/`Or`/`Not`) is modelled as
keeping the accumulator. -/
def applyResult (st : State) (result : Option Bitmap) (not_mask : Bitmap) : Bitmap :=
  match st.bm with
  | some dest =>
    match st.op with
    | .And =>
      match result with
      | some r => dest ∩ r
      | none => ∅
    | .Or =>
      match result with
      | some r => dest ∪ r
      | none => dest
    | .Not =>
      match result with
      | some r => dest ∩ (r ∆ not_mask)
      | none => dest
    | _ => dest
  | none =>
    match result with
    | some r => if st.op = .Not then r ∆ not_mask else r
    | none => if st.op = .Not then not_mask else ∅

/-- Lazy NOT-mask fetch followed by the combine step, returning the new
accumulator together with the NOT-mask state and fetch count. -/
def stepCombine (store : StoreModel) (account_id collection : Nat) (st : State)
    (result : Option Bitmap) (not_mask : Bitmap) (not_fetch : Bool) (fetches : Nat) :
    Except Error (Bitmap × Bitmap × Bool × Nat) :=
  match fetchNotMask store account_id collection st.op not_mask not_fetch fetches with
  | .error e => .error e
  | .ok (nm, nf, cnt) => .ok (applyResult st result nm, nm, nf, cnt)

/-- `matches!(op, Filter::And)`. -/
def isAnd : Filter → Bool
  | .And => true
  | _ => false

/-- The And short-circuit skip (`filter.rs` lines 167-173): consume tokens
while the next token is not `End`; the first `End` is left in the stream. -/
def skipTail : List Filter → List Filter
  | [] => []
  | .End :: rest => .End :: rest
  | _ :: rest => skipTail rest

/-- Token stream remaining after the short-circuit check (`filter.rs` lines
165-174): when the current scope is `And` and its accumulator just became
empty, skip forward to the next `End` token. -/
def nextRest (op : Filter) (bm : Bitmap) (rest : List Filter) : List Filter :=
  if isAnd op && (bm == ∅) then skipTail rest else rest

theorem skipTail_length_le : ∀ l : List Filter, (skipTail l).length ≤ l.length := by
  intro l
  induction l with
  | nil => simp [skipTail]
  | cons f rest ih =>
    cases f <;> simp [skipTail] <;> omega

theorem nextRest_length_le (op : Filter) (bm : Bitmap) (rest : List Filter) :
    (nextRest op bm rest).length ≤ rest.length := by
  unfold nextRest
  split
  · exact skipTail_length_le rest
  · exact Nat.le_refl _

/-- The evaluator loop of `Store::filter` (`filter.rs` lines 68-175): walk the
flattened token stream with a frame stack. Scope-open tokens push the current
frame; `End` pops (terminating the loop at an unmatched `End`); leaf tokens
resolve via `resolveLeaf`; each produced result is combined into the current
frame after the lazy NOT-mask fetch, then the And short-circuit may skip
forward. Returns the final frame's accumulator and the universe-fetch count. -/
def filterLoop (store : StoreModel) (account_id collection : Nat) :
    List Filter → State → List State → Bitmap → Bool → Nat →
    Except Error (Option Bitmap × Nat)
  | [], st, _stack, _nm, _nf, cnt => .ok (st.bm, cnt)
  | f :: rest, st, stack, nm, nf, cnt =>
    match f with
    | .And | .Or | .Not =>
        filterLoop store account_id collection rest ⟨f, none⟩ (st :: stack) nm nf cnt
    | .End =>
        match stack with
        | [] => .ok (st.bm, cnt)
        | prev :: stack' =>
            match stepCombine store account_id collection prev st.bm nm nf cnt with
            | .error e => .error e
            | .ok (bm', nm', nf', cnt') =>
                filterLoop store account_id collection (nextRest prev.op bm' rest)
                  ⟨prev.op, some bm'⟩ stack' nm' nf' cnt'
    | f =>
        match resolveLeaf store account_id collection f with
        | .error e => .error e
        | .ok result =>
            match stepCombine store account_id collection st result nm nf cnt with
            | .error e => .error e
            | .ok (bm', nm', nf', cnt') =>
                filterLoop store account_id collection (nextRest st.op bm' rest)
                  ⟨st.op, some bm'⟩ stack nm' nf' cnt'
  termination_by l _ _ _ _ _ => l.length
  decreasing_by
    · simp only [List.length_cons]; omega
    · simp only [List.length_cons]
      exact Nat.lt_succ_of_le (nextRest_length_le _ _ _)
    · simp only [List.length_cons]
      exact Nat.lt_succ_of_le (nextRest_length_le _ _ _)

/-- `Store::filter` (`filter.rs` lines 43-182) instrumented with the count of
universe-bitmap (`BitmapKey::document_ids`) fetches it performs: an empty
filter sequence returns the universe directly (one fetch); otherwise the
evaluator loop runs from an implicit `And` frame and the final accumulator
(or empty) is the result. -/
def StoreModel.filterCounted (store : StoreModel) (account_id collection : Nat)
    (filters : List Filter) : Except Error (ResultSet × Nat) :=
  if filters.isEmpty then
    match store.documentIds account_id collection with
    | .error e => .error e
    | .ok bm => .ok (⟨account_id, collection, bm.getD ∅⟩, 1)
  else
    match filterLoop store account_id collection filters ⟨.And, none⟩ [] ∅ false 0 with
    | .error e => .error e
    | .ok (bm, cnt) => .ok (⟨account_id, collection, bm.getD ∅⟩, cnt)

/-- `Store::filter`: the instrumented evaluator with the fetch count dropped. -/
def StoreModel.filter (store : StoreModel) (account_id collection : Nat)
    (filters : List Filter) : Except Error ResultSet :=
  (store.filterCounted account_id collection filters).map Prod.fst

/-! ## Reference evaluator (Modelled from the spec)

For the short-circuit refinement claim: the same boolean semantics (spec §4.4
rules 1-4 and 6) with rule 5 (the And short-circuit skip) removed, so every
leaf is resolved. -/

/-- Modelled from the spec: the reference evaluator loop — identical to
`filterLoop` except that no token is ever skipped (spec §4.4 without rule 5). -/
def filterLoopSpec (store : StoreModel) (account_id collection : Nat) :
    List Filter → State → List State → Bitmap → Bool → Nat →
    Except Error (Option Bitmap × Nat)
  | [], st, _stack, _nm, _nf, cnt => .ok (st.bm, cnt)
  | f :: rest, st, stack, nm, nf, cnt =>
    match f with
    | .And | .Or | .Not =>
        filterLoopSpec store account_id collection rest ⟨f, none⟩ (st :: stack) nm nf cnt
    | .End =>
        match stack with
        | [] => .ok (st.bm, cnt)
        | prev :: stack' =>
            match stepCombine store account_id collection prev st.bm nm nf cnt with
            | .error e => .error e
            | .ok (bm', nm', nf', cnt') =>
                filterLoopSpec store account_id collection rest
                  ⟨prev.op, some bm'⟩ stack' nm' nf' cnt'
    | f =>
        match resolveLeaf store account_id collection f with
        | .error e => .error e
        | .ok result =>
            match stepCombine store account_id collection st result nm nf cnt with
            | .error e => .error e
            | .ok (bm', nm', nf', cnt') =>
                filterLoopSpec store account_id collection rest
                  ⟨st.op, some bm'⟩ stack nm' nf' cnt'

/-- Modelled from the spec: `filter` with the reference evaluator loop. -/
def StoreModel.filterSpec (store : StoreModel) (account_id collection : Nat)
    (filters : List Filter) : Except Error ResultSet :=
  if filters.isEmpty then
    match store.documentIds account_id collection with
    | .error e => .error e
    | .ok bm => .ok ⟨account_id, collection, bm.getD ∅⟩
  else
    match filterLoopSpec store account_id collection filters ⟨.And, none⟩ [] ∅ false 0 with
    | .error e => .error e
    | .ok (bm, _) => .ok ⟨account_id, collection, bm.getD ∅⟩

/-- A store whose universe lookup returns `u` and whose other postings
lookups all resolve to "no matches", over an empty key space. -/
def mkStore (u : Option Bitmap) : StoreModel where
  keys := []
  documentIds := fun _ _ => .ok u
  textBitmap := fun _ _ _ _ => .ok none
  textIntersection := fun _ _ _ _ => .ok none
  classBitmap := fun _ _ _ => .ok none
  tokenizeWords := fun _ => []

/-! ## Helper lemmas about the evaluator loop -/

theorem mem_skipTail : ∀ (l : List Filter) (x : Filter), x ∈ skipTail l → x ∈ l := by
  intro l x
  induction l with
  | nil => simp [skipTail]
  | cons f rest ih =>
    cases f
    case End => simp [skipTail]
    all_goals
      intro hx
      simp only [skipTail] at hx
      exact List.mem_cons_of_mem _ (ih hx)

theorem mem_nextRest (op : Filter) (bm : Bitmap) (rest : List Filter) (x : Filter) :
    x ∈ nextRest op bm rest → x ∈ rest := by
  unfold nextRest
  split
  · exact mem_skipTail rest x
  · exact id

theorem fetchNotMask_count (store : StoreModel) (a c : Nat) (op : Filter)
    (nm : Bitmap) (nf : Bool) (cnt : Nat) (t : Bitmap × Bool × Nat)
    (h : fetchNotMask store a c op nm nf cnt = .ok t) :
    t.2.2 + (if t.2.1 then 0 else 1) ≤ cnt + (if nf then 0 else 1) := by
  unfold fetchNotMask at h
  split at h
  · rename_i hcond
    cases hdoc : store.documentIds a c with
    | error e => rw [hdoc] at h; cases h
    | ok m =>
      rw [hdoc] at h
      simp only [Except.ok.injEq] at h
      subst h
      simp [hcond.2]
  · simp only [Except.ok.injEq] at h
    subst h
    simp

theorem fetchNotMask_of_op_ne_not (store : StoreModel) (a c : Nat) (op : Filter)
    (nm : Bitmap) (nf : Bool) (cnt : Nat) (t : Bitmap × Bool × Nat) (hop : op ≠ .Not)
    (h : fetchNotMask store a c op nm nf cnt = .ok t) : t = (nm, nf, cnt) := by
  unfold fetchNotMask at h
  rw [if_neg (by tauto)] at h
  simp only [Except.ok.injEq] at h
  exact h.symm

theorem stepCombine_count (store : StoreModel) (a c : Nat) (st : State) (result : Option Bitmap)
    (nm : Bitmap) (nf : Bool) (cnt : Nat) (bm' nm' : Bitmap) (nf' : Bool) (cnt' : Nat)
    (h : stepCombine store a c st result nm nf cnt = .ok (bm', nm', nf', cnt')) :
    cnt' + (if nf' then 0 else 1) ≤ cnt + (if nf then 0 else 1) := by
  unfold stepCombine at h
  cases hfm : fetchNotMask store a c st.op nm nf cnt with
  | error e => rw [hfm] at h; cases h
  | ok t =>
    rw [hfm] at h
    simp only [Except.ok.injEq, Prod.mk.injEq] at h
    have := fetchNotMask_count store a c st.op nm nf cnt t hfm
    obtain ⟨-, h2, h3, h4⟩ := h
    rw [← h3, ← h4]
    exact this

theorem stepCombine_of_op_ne_not (store : StoreModel) (a c : Nat) (st : State)
    (result : Option Bitmap) (nm : Bitmap) (nf : Bool) (cnt : Nat)
    (bm' nm' : Bitmap) (nf' : Bool) (cnt' : Nat) (hop : st.op ≠ .Not)
    (h : stepCombine store a c st result nm nf cnt = .ok (bm', nm', nf', cnt')) :
    nm' = nm ∧ nf' = nf ∧ cnt' = cnt := by
  unfold stepCombine at h
  cases hfm : fetchNotMask store a c st.op nm nf cnt with
  | error e => rw [hfm] at h; cases h
  | ok t =>
    rw [hfm] at h
    have := fetchNotMask_of_op_ne_not store a c st.op nm nf cnt t hop hfm
    subst this
    simp only [Except.ok.injEq, Prod.mk.injEq] at h
    tauto

theorem filterLoop_fetch_le (store : StoreModel) (a c : Nat)
    (l : List Filter) (st : State) (stack : List State) (nm : Bitmap) (nf : Bool) (cnt : Nat) :
    ∀ res : Option Bitmap × Nat,
      filterLoop store a c l st stack nm nf cnt = .ok res →
      res.2 ≤ cnt + (if nf then 0 else 1) := by
  induction l, st, stack, nm, nf, cnt using filterLoop.induct store a c with
  | case1 st stack nm nf cnt =>
    intro res h
    simp only [filterLoop, Except.ok.injEq] at h
    subst h
    split <;> omega
  | case2 rest st stack nm nf cnt ih =>
    intro res h
    simp only [filterLoop] at h
    exact ih res h
  | case3 rest st stack nm nf cnt ih =>
    intro res h
    simp only [filterLoop] at h
    exact ih res h
  | case4 rest st stack nm nf cnt ih =>
    intro res h
    simp only [filterLoop] at h
    exact ih res h
  | case5 rest st nm nf cnt =>
    intro res h
    simp only [filterLoop, Except.ok.injEq] at h
    subst h
    split <;> omega
  | case6 rest st nm nf cnt prev stack' e hstep =>
    intro res h
    simp only [filterLoop, hstep] at h
    exact Except.noConfusion h
  | case7 rest st nm nf cnt prev stack' bm' nm' nf' cnt' hstep ih =>
    intro res h
    simp only [filterLoop, hstep] at h
    exact le_trans (ih res h)
      (stepCombine_count store a c prev st.bm nm nf cnt bm' nm' nf' cnt' hstep)
  | case8 rest st stack nm nf cnt f h1 h2 h3 h4 e hres =>
    intro res h
    cases f
    case And => exact absurd rfl h1
    case Or => exact absurd rfl h2
    case Not => exact absurd rfl h3
    case End => exact absurd rfl h4
    all_goals
      simp only [filterLoop, hres] at h
      exact Except.noConfusion h
  | case9 rest st stack nm nf cnt f h1 h2 h3 h4 m hres e hstep =>
    intro res h
    cases f
    case And => exact absurd rfl h1
    case Or => exact absurd rfl h2
    case Not => exact absurd rfl h3
    case End => exact absurd rfl h4
    all_goals
      simp only [filterLoop, hres, hstep] at h
      exact Except.noConfusion h
  | case10 rest st stack nm nf cnt f h1 h2 h3 h4 m hres bm' nm' nf' cnt' hstep ih =>
    intro res h
    have key : cnt' + (if nf' then 0 else 1) ≤ cnt + (if nf then 0 else 1) :=
      stepCombine_count store a c st m nm nf cnt bm' nm' nf' cnt' hstep
    cases f
    case And => exact absurd rfl h1
    case Or => exact absurd rfl h2
    case Not => exact absurd rfl h3
    case End => exact absurd rfl h4
    all_goals
      simp only [filterLoop, hres, hstep] at h
      exact le_trans (ih res h) key

theorem filterLoop_no_not_count (store : StoreModel) (a c : Nat)
    (l : List Filter) (st : State) (stack : List State) (nm : Bitmap) (nf : Bool) (cnt : Nat) :
    (∀ x ∈ l, x ≠ Filter.Not) → st.op ≠ Filter.Not → (∀ s ∈ stack, s.op ≠ Filter.Not) →
    ∀ res : Option Bitmap × Nat,
      filterLoop store a c l st stack nm nf cnt = .ok res → res.2 = cnt := by
  induction l, st, stack, nm, nf, cnt using filterLoop.induct store a c with
  | case1 st stack nm nf cnt =>
    intro _ _ _ res h
    simp only [filterLoop, Except.ok.injEq] at h
    subst h
    rfl
  | case2 rest st stack nm nf cnt ih =>
    intro hl hop hstack res h
    simp only [filterLoop] at h
    exact ih (fun x hx => hl x (List.mem_cons_of_mem _ hx)) (by simp)
      (by intro s hs
          rcases List.mem_cons.mp hs with rfl | hs
          · exact hop
          · exact hstack s hs) res h
  | case3 rest st stack nm nf cnt ih =>
    intro hl hop hstack res h
    simp only [filterLoop] at h
    exact ih (fun x hx => hl x (List.mem_cons_of_mem _ hx)) (by simp)
      (by intro s hs
          rcases List.mem_cons.mp hs with rfl | hs
          · exact hop
          · exact hstack s hs) res h
  | case4 rest st stack nm nf cnt ih =>
    intro hl _ _ res _
    exact absurd rfl (hl Filter.Not (List.mem_cons_self _ _))
  | case5 rest st nm nf cnt =>
    intro _ _ _ res h
    simp only [filterLoop, Except.ok.injEq] at h
    subst h
    rfl
  | case6 rest st nm nf cnt prev stack' e hstep =>
    intro _ _ _ res h
    simp only [filterLoop, hstep] at h
    exact Except.noConfusion h
  | case7 rest st nm nf cnt prev stack' bm' nm' nf' cnt' hstep ih =>
    intro hl hop hstack res h
    simp only [filterLoop, hstep] at h
    have hprev : prev.op ≠ Filter.Not := hstack prev (List.mem_cons_self _ _)
    obtain ⟨-, -, hcnt⟩ :=
      stepCombine_of_op_ne_not store a c prev st.bm nm nf cnt bm' nm' nf' cnt' hprev hstep
    subst hcnt
    exact ih (fun x hx => hl x (List.mem_cons_of_mem _ (mem_nextRest _ _ _ _ hx))) hprev
      (fun s hs => hstack s (List.mem_cons_of_mem _ hs)) res h
  | case8 rest st stack nm nf cnt f h1 h2 h3 h4 e hres =>
    intro _ _ _ res h
    cases f
    case And => exact absurd rfl h1
    case Or => exact absurd rfl h2
    case Not => exact absurd rfl h3
    case End => exact absurd rfl h4
    all_goals
      simp only [filterLoop, hres] at h
      exact Except.noConfusion h
  | case9 rest st stack nm nf cnt f h1 h2 h3 h4 m hres e hstep =>
    intro _ _ _ res h
    cases f
    case And => exact absurd rfl h1
    case Or => exact absurd rfl h2
    case Not => exact absurd rfl h3
    case End => exact absurd rfl h4
    all_goals
      simp only [filterLoop, hres, hstep] at h
      exact Except.noConfusion h
  | case10 rest st stack nm nf cnt f h1 h2 h3 h4 m hres bm' nm' nf' cnt' hstep ih =>
    intro hl hop hstack res h
    obtain ⟨-, -, hcnt⟩ :=
      stepCombine_of_op_ne_not store a c st m nm nf cnt bm' nm' nf' cnt' hop hstep
    subst hcnt
    have htail : ∀ x ∈ nextRest st.op bm' rest, x ≠ Filter.Not :=
      fun x hx => hl x (List.mem_cons_of_mem _ (mem_nextRest _ _ _ _ hx))
    cases f
    case And => exact absurd rfl h1
    case Or => exact absurd rfl h2
    case Not => exact absurd rfl h3
    case End => exact absurd rfl h4
    all_goals
      simp only [filterLoop, hres, hstep] at h
      exact ih htail hop hstack res h

theorem skipTail_suffix : ∀ l : List Filter, ∃ p, l = p ++ skipTail l := by
  intro l
  induction l with
  | nil => exact ⟨[], rfl⟩
  | cons f rest ih =>
    obtain ⟨p, hp⟩ := ih
    by_cases hf : f = Filter.End
    · subst hf
      exact ⟨[], rfl⟩
    · have hskip : skipTail (f :: rest) = skipTail rest := by
        cases f <;> first | rfl | exact absurd rfl hf
      rw [hskip]
      exact ⟨f :: p, by rw [List.cons_append, ← hp]⟩

theorem nextRest_suffix (op : Filter) (bm : Bitmap) (rest : List Filter) :
    ∃ p, rest = p ++ nextRest op bm rest := by
  unfold nextRest
  split
  · exact skipTail_suffix rest
  · exact ⟨[], rfl⟩

/-- Laziness of the universe fetch: from a configuration whose active and
stacked scopes are all non-`Not` and where no fetch has happened yet, a run of
the evaluator loop either never fetches the universe, or factors — still with
zero fetches — through the configuration at which a `Not` scope token is about
to be processed. Every token consumed up to that point precedes the first
encountered `Not` scope. -/
theorem filterLoop_lazy_fetch (store : StoreModel) (a c : Nat)
    (l : List Filter) (st : State) (stack : List State) (nm : Bitmap) (nf : Bool) (cnt : Nat) :
    nf = false → cnt = 0 → st.op ≠ Filter.Not → (∀ s ∈ stack, s.op ≠ Filter.Not) →
    ∀ res : Option Bitmap × Nat,
      filterLoop store a c l st stack nm nf cnt = .ok res →
      res.2 = 0 ∨ ∃ (pre suf : List Filter) (st' : State) (stack' : List State) (nm' : Bitmap),
        l = pre ++ Filter.Not :: suf ∧ st'.op ≠ Filter.Not ∧
        (∀ s ∈ stack', s.op ≠ Filter.Not) ∧
        filterLoop store a c l st stack nm nf cnt =
          filterLoop store a c (Filter.Not :: suf) st' stack' nm' false 0 := by
  induction l, st, stack, nm, nf, cnt using filterLoop.induct store a c with
  | case1 st stack nm nf cnt =>
    intro hnf hcnt _ _ res h
    simp only [filterLoop, Except.ok.injEq] at h
    subst h
    exact Or.inl hcnt
  | case2 rest st stack nm nf cnt ih =>
    intro hnf hcnt hop hstack res h
    simp only [filterLoop] at h
    have hstack' : ∀ s ∈ st :: stack, s.op ≠ Filter.Not := by
      intro s hs
      rcases List.mem_cons.mp hs with rfl | hs
      · exact hop
      · exact hstack s hs
    rcases ih hnf hcnt (by simp) hstack' res h with h0 | ⟨pre, suf, st', stack', nm', heq, hop', hst', hfac⟩
    · exact Or.inl h0
    · refine Or.inr ⟨Filter.And :: pre, suf, st', stack', nm',
        by rw [heq, List.cons_append], hop', hst', ?_⟩
      have hstep1 : filterLoop store a c (Filter.And :: rest) st stack nm nf cnt =
          filterLoop store a c rest ⟨Filter.And, none⟩ (st :: stack) nm nf cnt := by
        simp only [filterLoop]
      exact hstep1.trans hfac
  | case3 rest st stack nm nf cnt ih =>
    intro hnf hcnt hop hstack res h
    simp only [filterLoop] at h
    have hstack' : ∀ s ∈ st :: stack, s.op ≠ Filter.Not := by
      intro s hs
      rcases List.mem_cons.mp hs with rfl | hs
      · exact hop
      · exact hstack s hs
    rcases ih hnf hcnt (by simp) hstack' res h with h0 | ⟨pre, suf, st', stack', nm', heq, hop', hst', hfac⟩
    · exact Or.inl h0
    · refine Or.inr ⟨Filter.Or :: pre, suf, st', stack', nm',
        by rw [heq, List.cons_append], hop', hst', ?_⟩
      have hstep1 : filterLoop store a c (Filter.Or :: rest) st stack nm nf cnt =
          filterLoop store a c rest ⟨Filter.Or, none⟩ (st :: stack) nm nf cnt := by
        simp only [filterLoop]
      exact hstep1.trans hfac
  | case4 rest st stack nm nf cnt ih =>
    intro hnf hcnt hop hstack res h
    subst hnf
    subst hcnt
    exact Or.inr ⟨[], rest, st, stack, nm, rfl, hop, hstack, rfl⟩
  | case5 rest st nm nf cnt =>
    intro hnf hcnt _ _ res h
    simp only [filterLoop, Except.ok.injEq] at h
    subst h
    exact Or.inl hcnt
  | case6 rest st nm nf cnt prev stack' e hstep =>
    intro _ _ _ _ res h
    simp only [filterLoop, hstep] at h
    exact Except.noConfusion h
  | case7 rest st nm nf cnt prev stack' bm' nm' nf' cnt' hstep ih =>
    intro hnf hcnt hop hstack res h
    simp only [filterLoop, hstep] at h
    have hprev : prev.op ≠ Filter.Not := hstack prev (List.mem_cons_self _ _)
    obtain ⟨hnm, hnf', hcnt'⟩ :=
      stepCombine_of_op_ne_not store a c prev st.bm nm nf cnt bm' nm' nf' cnt' hprev hstep
    have hstk : ∀ s ∈ stack', s.op ≠ Filter.Not :=
      fun s hs => hstack s (List.mem_cons_of_mem _ hs)
    rcases ih (hnf' ▸ hnf) (hcnt' ▸ hcnt) hprev hstk res h with
      h0 | ⟨pre, suf, st2, stack2, nm2, heq, hop2, hst2, hfac⟩
    · exact Or.inl h0
    · obtain ⟨p, hp⟩ := nextRest_suffix prev.op bm' rest
      refine Or.inr ⟨Filter.End :: (p ++ pre), suf, st2, stack2, nm2, ?_, hop2, hst2, ?_⟩
      · rw [List.cons_append, List.append_assoc, ← heq, ← hp]
      · have hstep1 : filterLoop store a c (Filter.End :: rest) st (prev :: stack') nm nf cnt =
            filterLoop store a c (nextRest prev.op bm' rest) ⟨prev.op, some bm'⟩ stack'
              nm' nf' cnt' := by
          simp only [filterLoop, hstep]
        exact hstep1.trans hfac
  | case8 rest st stack nm nf cnt f h1 h2 h3 h4 e hres =>
    intro _ _ _ _ res h
    cases f
    case And => exact absurd rfl h1
    case Or => exact absurd rfl h2
    case Not => exact absurd rfl h3
    case End => exact absurd rfl h4
    all_goals
      simp only [filterLoop, hres] at h
      exact Except.noConfusion h
  | case9 rest st stack nm nf cnt f h1 h2 h3 h4 m hres e hstep =>
    intro _ _ _ _ res h
    cases f
    case And => exact absurd rfl h1
    case Or => exact absurd rfl h2
    case Not => exact absurd rfl h3
    case End => exact absurd rfl h4
    all_goals
      simp only [filterLoop, hres, hstep] at h
      exact Except.noConfusion h
  | case10 rest st stack nm nf cnt f h1 h2 h3 h4 m hres bm' nm' nf' cnt' hstep ih =>
    intro hnf hcnt hop hstack res h
    obtain ⟨hnm, hnf', hcnt'⟩ :=
      stepCombine_of_op_ne_not store a c st m nm nf cnt bm' nm' nf' cnt' hop hstep
    obtain ⟨p, hp⟩ := nextRest_suffix st.op bm' rest
    have hunfold : filterLoop store a c (f :: rest) st stack nm nf cnt =
        filterLoop store a c (nextRest st.op bm' rest) ⟨st.op, some bm'⟩ stack nm' nf' cnt' := by
      cases f
      case And => exact absurd rfl h1
      case Or => exact absurd rfl h2
      case Not => exact absurd rfl h3
      case End => exact absurd rfl h4
      all_goals simp only [filterLoop, hres, hstep]
    rcases ih (hnf' ▸ hnf) (hcnt' ▸ hcnt) hop hstack res (hunfold.symm.trans h) with
      h0 | ⟨pre, suf, st2, stack2, nm2, heq, hop2, hst2, hfac⟩
    · exact Or.inl h0
    · refine Or.inr ⟨f :: (p ++ pre), suf, st2, stack2, nm2, ?_, hop2, hst2,
        hunfold.trans hfac⟩
      rw [List.cons_append, List.append_assoc, ← heq, ← hp]

/-! ## Claim theorems about the boolean evaluator -/

/-- Shared helper: a single `Not` scope over a caller-supplied document set
symmetric-differences it against the fetched universe (empty when missing). -/
theorem filter_not_docset (store : StoreModel) (a c : Nat) (ou : Option Bitmap) (s : Bitmap)
    (h : store.documentIds a c = .ok ou) :
    store.filter a c [.Not, .DocumentSet s, .End] = .ok ⟨a, c, s ∆ ou.getD ∅⟩ := by
  simp [StoreModel.filter, StoreModel.filterCounted, filterLoop, stepCombine, fetchNotMask,
    applyResult, resolveLeaf, nextRest, skipTail, isAnd, h, Except.map]

/-- C3: for every account and collection whose universal document-id bitmap is `u`,
`filter` with an empty filter sequence returns `Ok` of a `ResultSet` whose results
bitmap is `u`, the collection's universal document-ID set. -/
theorem c3_empty_filters_return_universe (store : StoreModel) (a c : Nat) (u : Bitmap)
    (h : store.documentIds a c = .ok (some u)) :
    store.filter a c [] = .ok ⟨a, c, u⟩ := by
  simp [StoreModel.filter, StoreModel.filterCounted, h, Except.map]

theorem c3_witness :
    (mkStore (some {1, 2, 3})).filter 7 9 [] = .ok ⟨7, 9, {1, 2, 3}⟩ :=
  c3_empty_filters_return_universe (mkStore (some {1, 2, 3})) 7 9 {1, 2, 3} rfl

/-- C4: in a `Not` scope a resolved leaf bitmap is complemented against the universe
bitmap (set complement within the universe, for leaves inside it) before being
intersected into the scope's accumulator (or becoming the accumulator); with
universe {1,2,3,4,5}, `[Not, DocumentSet {1,2}, End]` yields {3,4,5}. -/
theorem c4_not_complements_within_universe (store : StoreModel) (a c : Nat) (u s : Bitmap)
    (h : store.documentIds a c = .ok (some u)) (hs : s ⊆ u) :
    store.filter a c [.Not, .DocumentSet s, .End] = .ok ⟨a, c, u \ s⟩ ∧
    (∀ dest r : Bitmap, applyResult ⟨.Not, some dest⟩ (some r) u = dest ∩ (r ∆ u)) := by
  refine ⟨?_, fun dest r => rfl⟩
  have e : s ∆ u = u \ s := by
    ext d
    simp only [Finset.mem_symmDiff, Finset.mem_sdiff]
    constructor
    · rintro (⟨hd, hnd⟩ | ⟨hd, hnd⟩)
      · exact absurd (hs hd) hnd
      · exact ⟨hd, hnd⟩
    · rintro ⟨hd, hnd⟩
      exact Or.inr ⟨hd, hnd⟩
  have h2 := filter_not_docset store a c (some u) s h
  rw [Option.getD_some, e] at h2
  exact h2

theorem c4_witness :
    (mkStore (some {1, 2, 3, 4, 5})).filter 0 0 [.Not, .DocumentSet {1, 2}, .End] =
      .ok ⟨0, 0, {3, 4, 5}⟩ := by
  have h := (c4_not_complements_within_universe (mkStore (some {1, 2, 3, 4, 5})) 0 0
      {1, 2, 3, 4, 5} {1, 2} rfl (by decide)).1
  have e : ({1, 2, 3, 4, 5} : Bitmap) \ {1, 2} = {3, 4, 5} := by decide
  rw [e] at h
  exact h

/-- C9: the `Not` complement is implemented as symmetric difference with the universe,
not as an intersection-bounded complement: the scope result on `DocumentSet s` is
`s ∆ universe`, so a document id in `s` but absent from the universe stays present. -/
theorem c9_not_complement_is_symmdiff (store : StoreModel) (a c : Nat) (u s : Bitmap)
    (h : store.documentIds a c = .ok (some u)) :
    store.filter a c [.Not, .DocumentSet s, .End] = .ok ⟨a, c, s ∆ u⟩ ∧
    ∀ d, d ∈ s → d ∉ u → d ∈ s ∆ u := by
  refine ⟨by simpa using filter_not_docset store a c (some u) s h, fun d hds hdu => ?_⟩
  simp only [Finset.mem_symmDiff]
  exact Or.inl ⟨hds, hdu⟩

theorem c9_witness :
    (mkStore (some {1, 2, 3})).filter 0 0 [.Not, .DocumentSet {2, 5}, .End] =
      .ok ⟨0, 0, {1, 3, 5}⟩ ∧ 5 ∈ ({1, 3, 5} : Bitmap) := by
  have h := c9_not_complement_is_symmdiff (mkStore (some {1, 2, 3})) 0 0 {1, 2, 3} {2, 5} rfl
  have e : ({2, 5} : Bitmap) ∆ {1, 2, 3} = {1, 3, 5} := by decide
  exact ⟨by rw [← e]; exact h.1, by decide⟩

/-- C10: a missing universe entry (`get_bitmap` returning `None`) is treated as an
empty universe, never an error: the empty filter sequence returns `Ok` with an empty
results bitmap, and a `Not` scope uses the empty bitmap as its universe. -/
theorem c10_missing_universe_treated_empty (store : StoreModel) (a c : Nat) (s : Bitmap)
    (h : store.documentIds a c = .ok none) :
    store.filter a c [] = .ok ⟨a, c, ∅⟩ ∧
    store.filter a c [.Not, .DocumentSet s, .End] = .ok ⟨a, c, s ∆ (∅ : Bitmap)⟩ := by
  refine ⟨?_, by simpa using filter_not_docset store a c none s h⟩
  simp [StoreModel.filter, StoreModel.filterCounted, h, Except.map]

theorem c10_witness :
    (mkStore none).filter 0 0 [] = .ok ⟨0, 0, ∅⟩ ∧
    (mkStore none).filter 0 0 [.Not, .DocumentSet {1, 2}, .End] = .ok ⟨0, 0, {1, 2}⟩ := by
  have h := c10_missing_universe_treated_empty (mkStore none) 0 0 {1, 2} rfl
  have e : ({1, 2} : Bitmap) ∆ ∅ = {1, 2} := by decide
  exact ⟨h.1, by rw [← e]; exact h.2⟩

/-- C8: double negation is the identity: `[Not, Not, DocumentSet s, End, End]`
evaluates to exactly `s` (the two symmetric differences with the universe cancel). -/
theorem c8_double_negation (store : StoreModel) (a c : Nat) (u s : Bitmap)
    (h : store.documentIds a c = .ok (some u)) :
    store.filter a c [.Not, .Not, .DocumentSet s, .End, .End] = .ok ⟨a, c, s⟩ := by
  simp [StoreModel.filter, StoreModel.filterCounted, filterLoop, stepCombine, fetchNotMask,
    applyResult, resolveLeaf, nextRest, skipTail, isAnd, h, Except.map,
    symmDiff_symmDiff_cancel_right]

theorem c8_witness :
    (mkStore (some {1, 2, 3})).filter 0 0 [.Not, .Not, .DocumentSet {1, 4}, .End, .End] =
      .ok ⟨0, 0, {1, 4}⟩ :=
  c8_double_negation (mkStore (some {1, 2, 3})) 0 0 {1, 2, 3} {1, 4} rfl

/-- Leaf tokens of the flattened filter stream (everything except scope tokens). -/
def isLeaf : Filter → Bool
  | .And | .Or | .Not | .End => false
  | _ => true

/-- In an `Or` scope with an existing accumulator, a run of leaves that all resolve
to `None` leaves the evaluator state unchanged. -/
theorem filterLoop_or_none_skip (store : StoreModel) (a c : Nat) :
    ∀ (leaves rest : List Filter) (b : Bitmap) (stack : List State) (nm : Bitmap)
      (nf : Bool) (cnt : Nat),
      (∀ f ∈ leaves, isLeaf f = true ∧ resolveLeaf store a c f = .ok none) →
      filterLoop store a c (leaves ++ rest) ⟨.Or, some b⟩ stack nm nf cnt =
        filterLoop store a c rest ⟨.Or, some b⟩ stack nm nf cnt := by
  intro leaves
  induction leaves with
  | nil => simp
  | cons f fs ih =>
    intro rest b stack nm nf cnt h
    obtain ⟨hl, hr⟩ := h f (List.mem_cons_self f fs)
    have hfs : ∀ g ∈ fs, isLeaf g = true ∧ resolveLeaf store a c g = .ok none :=
      fun g hg => h g (List.mem_cons_of_mem f hg)
    cases f
    case And => simp [isLeaf] at hl
    case Or => simp [isLeaf] at hl
    case Not => simp [isLeaf] at hl
    case End => simp [isLeaf] at hl
    all_goals
      rw [List.cons_append]
      simp only [filterLoop, hr, stepCombine, fetchNotMask, applyResult, nextRest, isAnd,
        if_neg, Bool.false_and, Bool.and_eq_true, reduceCtorEq, false_and, if_false]
      exact ih rest b stack nm nf cnt hfs

/-- C6: an `Or` scope in which every leaf resolves to `None` (no matches) evaluates
successfully: the scope contributes an empty bitmap at its close and the final result
is `Ok` with an empty bitmap, not an error. -/
theorem c6_or_all_none_yields_empty (store : StoreModel) (a c : Nat) (leaves : List Filter)
    (h : ∀ f ∈ leaves, isLeaf f = true ∧ resolveLeaf store a c f = .ok none) :
    store.filter a c (.Or :: leaves ++ [.End]) = .ok ⟨a, c, ∅⟩ := by
  cases leaves with
  | nil =>
    simp [StoreModel.filter, StoreModel.filterCounted, filterLoop, stepCombine, fetchNotMask,
      applyResult, nextRest, skipTail, isAnd, Except.map]
  | cons f fs =>
    obtain ⟨hl, hr⟩ := h f (List.mem_cons_self f fs)
    have hfs : ∀ g ∈ fs, isLeaf g = true ∧ resolveLeaf store a c g = .ok none :=
      fun g hg => h g (List.mem_cons_of_mem f hg)
    have key : filterLoop store a c (f :: (fs ++ [Filter.End])) ⟨.Or, none⟩
        [⟨.And, none⟩] ∅ false 0 = .ok (some ∅, 0) := by
      cases f
      case And => simp [isLeaf] at hl
      case Or => simp [isLeaf] at hl
      case Not => simp [isLeaf] at hl
      case End => simp [isLeaf] at hl
      all_goals
        simp only [filterLoop, hr, stepCombine, fetchNotMask, applyResult, nextRest, isAnd,
          Bool.false_and, reduceCtorEq, false_and, if_false]
        rw [filterLoop_or_none_skip store a c fs [Filter.End] ∅ [⟨.And, none⟩] ∅ false 0 hfs]
        simp [filterLoop, stepCombine, fetchNotMask, applyResult, nextRest, skipTail, isAnd]
    simp [StoreModel.filter, StoreModel.filterCounted, filterLoop, key, Except.map]

theorem c6_witness :
    (mkStore none).filter 0 0 [.Or, .HasText 3 "unknown" false, .InBitmap 2, .End] =
      .ok ⟨0, 0, ∅⟩ := by
  refine c6_or_all_none_yields_empty (mkStore none) 0 0 [.HasText 3 "unknown" false, .InBitmap 2] ?_
  intro f hf
  rcases List.mem_cons.mp hf with rfl | hf
  · exact ⟨rfl, rfl⟩
  rcases List.mem_cons.mp hf with rfl | hf
  · exact ⟨rfl, rfl⟩
  · simp at hf

/-- C7 counterexample: an empty filter sequence contains no `Not` scope, yet
`filter` fetches the universe bitmap (count 1) — it is the result itself. -/
theorem c7_counterexample_empty_query_fetches :
    (mkStore (some {1})).filterCounted 0 0 [] = .ok (⟨0, 0, {1}⟩, 1) ∧
    Filter.Not ∉ ([] : List Filter) := ⟨rfl, by simp⟩

/-- C7 (amended): the universe bitmap is fetched at most once per `filter`
evaluation, and for every nonempty filter sequence it is fetched lazily:
either no fetch happens at all, or the whole evaluation factors — with zero
fetches performed up to that point — through the configuration at which a
`Not` scope token is about to be processed, so the universe is never fetched
before the first time a `Not` scope is encountered; in particular a nonempty
query containing no `Not` token never fetches it. (An empty filter sequence,
which contains no `Not` scope, fetches the universe exactly once — it is the
returned result itself.) -/
theorem c7_universe_fetch_amended (store : StoreModel) (a c : Nat) (filters : List Filter)
    (rs : ResultSet) (n : Nat)
    (h : store.filterCounted a c filters = .ok (rs, n)) :
    n ≤ 1 ∧
    (filters ≠ [] →
      (n = 0 ∨ ∃ (pre suf : List Filter) (st : State) (stack : List State) (nm : Bitmap),
        filters = pre ++ Filter.Not :: suf ∧ st.op ≠ Filter.Not ∧
        (∀ s ∈ stack, s.op ≠ Filter.Not) ∧
        filterLoop store a c filters ⟨.And, none⟩ [] ∅ false 0 =
          filterLoop store a c (Filter.Not :: suf) st stack nm false 0)) ∧
    (filters ≠ [] → Filter.Not ∉ filters → n = 0) := by
  cases filters with
  | nil =>
    unfold StoreModel.filterCounted at h
    simp only [List.isEmpty_nil, if_true] at h
    cases hdoc : store.documentIds a c with
    | error e => rw [hdoc] at h; exact Except.noConfusion h
    | ok m =>
      rw [hdoc] at h
      simp only [Except.ok.injEq, Prod.mk.injEq] at h
      exact ⟨h.2 ▸ Nat.le_refl 1, fun hne => absurd rfl hne, fun hne _ => absurd rfl hne⟩
  | cons f fs =>
    unfold StoreModel.filterCounted at h
    simp only [List.isEmpty_cons, Bool.false_eq_true, if_false] at h
    cases hloop : filterLoop store a c (f :: fs) ⟨.And, none⟩ [] ∅ false 0 with
    | error e => rw [hloop] at h; exact Except.noConfusion h
    | ok res =>
      rw [hloop] at h
      simp only [Except.ok.injEq, Prod.mk.injEq] at h
      obtain ⟨-, hn⟩ := h
      subst hn
      refine ⟨?_, ?_, ?_⟩
      · have := filterLoop_fetch_le store a c (f :: fs) ⟨.And, none⟩ [] ∅ false 0 res hloop
        simpa using this
      · intro _
        rcases filterLoop_lazy_fetch store a c (f :: fs) ⟨.And, none⟩ [] ∅ false 0 rfl rfl
            (by simp) (by simp) res hloop with
          h0 | ⟨pre, suf, st, stack, nm, heq, hop, hstk, hfac⟩
        · exact Or.inl h0
        · exact Or.inr ⟨pre, suf, st, stack, nm, heq, hop, hstk, hloop.symm.trans hfac⟩
      · intro _ hnot
        exact filterLoop_no_not_count store a c (f :: fs) ⟨.And, none⟩ [] ∅ false 0
          (fun x hx => fun hxn => hnot (hxn ▸ hx)) (by simp) (by simp) res hloop

theorem c7_witness :
    (mkStore (some {1, 2})).filterCounted 0 0 [.Not, .DocumentSet {1}, .End] =
      .ok (⟨0, 0, {2}⟩, 1) ∧
    (1 ≤ 1 ∧
     (([Filter.Not, Filter.DocumentSet {1}, Filter.End] : List Filter) ≠ [] →
       (1 = 0 ∨ ∃ (pre suf : List Filter) (st : State) (stack : List State) (nm : Bitmap),
         ([Filter.Not, Filter.DocumentSet {1}, Filter.End] : List Filter) =
           pre ++ Filter.Not :: suf ∧ st.op ≠ Filter.Not ∧
         (∀ s ∈ stack, s.op ≠ Filter.Not) ∧
         filterLoop (mkStore (some {1, 2})) 0 0
             [Filter.Not, Filter.DocumentSet {1}, Filter.End] ⟨.And, none⟩ [] ∅ false 0 =
           filterLoop (mkStore (some {1, 2})) 0 0 (Filter.Not :: suf) st stack nm false 0)) ∧
     (([Filter.Not, Filter.DocumentSet {1}, Filter.End] : List Filter) ≠ [] →
       Filter.Not ∉ ([Filter.Not, Filter.DocumentSet {1}, Filter.End] : List Filter) →
       1 = 0)) := by
  have hsd : ({1} : Bitmap) ∆ {1, 2} = {2} := by decide
  have h : (mkStore (some {1, 2})).filterCounted 0 0 [.Not, .DocumentSet {1}, .End] =
      .ok (⟨0, 0, {2}⟩, 1) := by
    simp [StoreModel.filterCounted, filterLoop, stepCombine, fetchNotMask, applyResult,
      resolveLeaf, nextRest, skipTail, isAnd, mkStore, hsd]
  exact ⟨h, c7_universe_fetch_amended (mkStore (some {1, 2})) 0 0
    [.Not, .DocumentSet {1}, .End] ⟨0, 0, {2}⟩ 1 h⟩

/-- The failing input for the And short-circuit claim: after `DocumentSet ∅`
empties the inner `And` scope, the skipped region contains a nested
`Or ... End` scope. -/
def c1Input : List Filter :=
  [.Or, .And, .DocumentSet ∅, .Or, .DocumentSet {1}, .End, .End, .DocumentSet {2}, .End]

/-- C1: refuted — the And short-circuit skip is a flat scan to the first `End`
token, not to the matching scope close. On `c1Input` (meaning
`Or(And(∅, Or({1})), {2})`) the evaluator returns `∅`, while the reference
evaluator of the same boolean semantics that resolves every leaf returns `{2}`:
the nested `Or`'s `End` is consumed as the `And` scope's boundary, so later
tokens are attributed to the wrong scopes. -/
theorem c1_and_short_circuit_flat_skip_diverges :
    (mkStore none).filter 0 0 c1Input = .ok ⟨0, 0, ∅⟩ ∧
    (mkStore none).filterSpec 0 0 c1Input = .ok ⟨0, 0, {2}⟩ := by
  constructor
  · simp [c1Input, StoreModel.filter, StoreModel.filterCounted, filterLoop, stepCombine,
      fetchNotMask, applyResult, resolveLeaf, nextRest, skipTail, isAnd, mkStore, Except.map]
  · simp [c1Input, StoreModel.filterSpec, filterLoopSpec, stepCombine, fetchNotMask,
      applyResult, resolveLeaf, isAnd, mkStore]

/-! ## Lexicographic order lemmas for the range scan -/

theorem byteLt_irrefl : ∀ l : List Nat, byteLt l l = false := by
  intro l
  induction l with
  | nil => rfl
  | cons a as ih => simp [byteLt, ih]

theorem byteLt_asymm : ∀ a b : List Nat, byteLt a b = true → byteLt b a = false := by
  intro a
  induction a with
  | nil =>
    intro b h
    cases b with
    | nil => exact absurd h (by simp [byteLt])
    | cons x xs => rfl
  | cons x xs ih =>
    intro b h
    cases b with
    | nil => exact absurd h (by simp [byteLt])
    | cons y ys =>
      simp only [byteLt] at h ⊢
      split at h
      · rename_i hxy
        rw [if_neg (by omega), if_pos hxy]
      · split at h
        · exact absurd h (by simp)
        · rename_i h1 h2
          rw [if_neg h2, if_neg h1]
          exact ih ys h

theorem byteLt_total_eq : ∀ a b : List Nat, byteLt a b = false → byteLt b a = false → a = b := by
  intro a
  induction a with
  | nil =>
    intro b h1 h2
    cases b with
    | nil => rfl
    | cons y ys => exact absurd h1 (by simp [byteLt])
  | cons x xs ih =>
    intro b h1 h2
    cases b with
    | nil => exact absurd h2 (by simp [byteLt])
    | cons y ys =>
      simp only [byteLt] at h1 h2
      split at h1
      · exact absurd h1 (by simp)
      · split at h1
        · rename_i hyx
          rw [if_pos hyx] at h2
          exact absurd h2 (by simp)
        · rename_i hxy hyx
          have hx : x = y := by omega
          subst hx
          rw [if_neg hxy, if_neg hxy] at h2
          rw [ih ys h1 h2]

theorem byteLt_trichotomy (a b : List Nat) :
    byteLt a b = true ∨ a = b ∨ byteLt b a = true := by
  cases h1 : byteLt a b
  · cases h2 : byteLt b a
    · exact Or.inr (Or.inl (byteLt_total_eq a b h1 h2))
    · exact Or.inr (Or.inr rfl)
  · exact Or.inl rfl

/-- Common-prefix cancellation. -/
theorem byteLt_append_same : ∀ (p a b : List Nat), byteLt (p ++ a) (p ++ b) = byteLt a b := by
  intro p
  induction p with
  | nil => simp
  | cons x xs ih =>
    intro a b
    simp only [List.cons_append, byteLt]
    rw [if_neg (lt_irrefl x), if_neg (lt_irrefl x)]
    exact ih a b

/-- Equal-length unequal heads dominate whatever follows. -/
theorem byteLt_append_append : ∀ (a b x y : List Nat), a.length = b.length →
    byteLt (a ++ x) (b ++ y) = if a = b then byteLt x y else byteLt a b := by
  intro a
  induction a with
  | nil =>
    intro b x y hlen
    cases b with
    | nil => simp
    | cons => simp at hlen
  | cons s ss ih =>
    intro b x y hlen
    cases b with
    | nil => simp at hlen
    | cons t ts =>
      simp only [List.length_cons, Nat.succ.injEq] at hlen
      simp only [List.cons_append, byteLt]
      rcases Nat.lt_trichotomy s t with h | h | h
      · have hne : s ≠ t := Nat.ne_of_lt h
        simp [byteLt, h, hne, List.cons.injEq]
      · subst h
        simp only [lt_self_iff_false, if_false, List.cons.injEq, true_and,
          List.append_eq]
        rw [ih ts x y hlen]
      · have hne : s ≠ t := by omega
        have hns : ¬ s < t := by omega
        simp [byteLt, h, hne, hns, List.cons.injEq]

theorem be32_length (n : Nat) : (be32 n).length = 4 := rfl

theorem byteLt_be32 (d e : Nat) (hd : d < 2 ^ 32) (he : e < 2 ^ 32) :
    byteLt (be32 d) (be32 e) = decide (d < e) := by
  simp only [be32, byteLt]
  split_ifs <;>
    · apply Eq.symm
      simp only [decide_eq_true_eq, decide_eq_false_iff_not]
      omega

theorem startsWith_append : ∀ (p t : List Nat), startsWith (p ++ t) p = true := by
  intro p t
  induction p with
  | nil => simp [startsWith]
  | cons x xs ih => simp [startsWith, List.cons_append, ih]

theorem startsWith_exists : ∀ (p k : List Nat), startsWith k p = true → ∃ t, k = p ++ t := by
  intro p
  induction p with
  | nil => exact fun k _ => ⟨k, rfl⟩
  | cons x xs ih =>
    intro k h
    cases k with
    | nil => exact absurd h (by simp [startsWith])
    | cons a as =>
      simp only [startsWith, Bool.and_eq_true, beq_iff_eq] at h
      obtain ⟨t, ht⟩ := ih as h.2
      exact ⟨t, by rw [h.1, ht, List.cons_append]⟩

/-- A key at or above a `p`-prefixed lower bound that does not itself start
with `p` lies strictly above every `p`-prefixed key. -/
theorem byteLt_all_of_not_startsWith :
    ∀ (p k s t : List Nat), byteLt k (p ++ s) = false → startsWith k p = false →
      byteLt (p ++ t) k = true := by
  intro p
  induction p with
  | nil =>
    intro k s t _ h2
    simp [startsWith] at h2
  | cons x xs ih =>
    intro k s t h1 h2
    cases k with
    | nil => simp [byteLt] at h1
    | cons a as =>
      simp only [startsWith, Bool.and_eq_true, beq_iff_eq, not_and] at h2
      simp only [List.cons_append, byteLt] at h1 ⊢
      by_cases hax : a < x
      · rw [if_pos hax] at h1
        exact absurd h1 (by simp)
      · by_cases hxa : x < a
        · rw [if_pos hxa]
        · have hax' : a = x := by omega
          subst hax'
          rw [if_neg hax, if_neg hax] at h1 ⊢
          rw [Bool.and_eq_false_iff] at h2
          rcases h2 with h2 | h2
          · simp at h2
          · exact ih as s t h1 h2

theorem byteLt_zeros_false : ∀ (z w : List Nat), (∀ b ∈ z, b = 0) → z.length ≤ w.length →
    byteLt w z = false := by
  intro z
  induction z with
  | nil =>
    intro w _ _
    cases w <;> rfl
  | cons b bs ih =>
    intro w hz hlen
    cases w with
    | nil => simp at hlen
    | cons a as =>
      have hb0 : b = 0 := hz b (List.mem_cons_self b bs)
      subst hb0
      simp only [byteLt]
      rw [if_neg (Nat.not_lt_zero a)]
      by_cases h0a : 0 < a
      · rw [if_pos h0a]
      · have ha : a = 0 := by omega
        subst ha
        rw [if_neg (lt_irrefl 0)]
        exact ih as (fun x hx => hz x (List.mem_cons_of_mem _ hx)) (by simpa using hlen)

theorem byteLt_not_of_ne (a b : List Nat) (h : a ≠ b) : byteLt a b = !byteLt b a := by
  cases h1 : byteLt b a
  · cases h2 : byteLt a b
    · exact absurd (byteLt_total_eq a b h2 h1) h
    · rfl
  · simp [byteLt_asymm b a h1]

theorem byteLt_field_boundary (a c f : Nat) (hf : f < 255) (w z : List Nat) :
    byteLt (serIndexKeyPre a c f ++ w) (serIndexKeyPre a c (f + 1) ++ z) = true := by
  simp only [serIndexKeyPre, List.append_assoc]
  rw [byteLt_append_same]
  simp only [List.cons_append, List.nil_append, byteLt]
  rw [if_neg (lt_irrefl (c % 256)), if_neg (lt_irrefl (c % 256)),
    if_pos (show f % 256 < (f + 1) % 256 by omega)]

/-- For a well-formed key of the scanned field, membership in the constructed
half-open scan range coincides with the true operator comparison, provided the
indexed value has the match value's byte length, the document id is below
`u32::MAX`, and the field is below 255. -/
theorem inRange_eq_opCompare (a c f : Nat) (val v : List Nat) (d : Nat) (op : Operator)
    (hv : v.length = val.length) (hd : d < u32MAX) (hf : f < 255) :
    (!byteLt (serIndexKeyPre a c f ++ (v ++ be32 d)) (rangeBounds a c f val op).1 &&
      byteLt (serIndexKeyPre a c f ++ (v ++ be32 d)) (rangeBounds a c f val op).2) =
      opCompare op v val := by
  have hd32 : d < 2 ^ 32 := by
    have : u32MAX < 2 ^ 32 := by norm_num [u32MAX]
    omega
  have h032 : (0 : Nat) < 2 ^ 32 := by norm_num
  have hmax32 : u32MAX < 2 ^ 32 := by norm_num [u32MAX]
  have hbe0 : byteLt (be32 d) (be32 0) = false := by
    rw [byteLt_be32 d 0 hd32 h032]
    simp
  have hbeMAX : byteLt (be32 d) (be32 u32MAX) = true := by
    rw [byteLt_be32 d u32MAX hd32 hmax32]
    simpa using hd
  have hzero : byteLt (v ++ be32 d) (be32 0) = false := by
    apply byteLt_zeros_false
    · decide
    · simp [be32_length]
  cases op
  case Equal =>
    simp only [rangeBounds, serIndexKey, opCompare, List.append_assoc, List.nil_append]
    rw [byteLt_append_same, byteLt_append_same,
      byteLt_append_append v val (be32 d) (be32 0) hv,
      byteLt_append_append v val (be32 d) (be32 u32MAX) hv]
    by_cases he : v = val
    · simp [he, hbe0, hbeMAX, byteLt_irrefl]
    · simp [he, Bool.not_and_self]
  case LowerThan =>
    simp only [rangeBounds, serIndexKey, opCompare, List.append_assoc, List.nil_append,
      List.append_nil]
    rw [byteLt_append_same, byteLt_append_same,
      byteLt_append_append v val (be32 d) (be32 0) hv, hzero]
    by_cases he : v = val
    · simp [he, hbe0, hbeMAX, byteLt_irrefl]
    · simp [he]
  case LowerEqualThan =>
    simp only [rangeBounds, serIndexKey, opCompare, List.append_assoc, List.nil_append,
      List.append_nil]
    rw [byteLt_append_same, byteLt_append_same,
      byteLt_append_append v val (be32 d) (be32 u32MAX) hv, hzero]
    by_cases he : v = val
    · simp [he, hbe0, hbeMAX, byteLt_irrefl]
    · simp [he, byteLt_not_of_ne v val he]
  case GreaterThan =>
    simp only [rangeBounds, serIndexKey, opCompare, List.append_assoc, List.nil_append]
    rw [byteLt_append_same,
      byteLt_append_append v val (be32 d) (be32 u32MAX) hv,
      byteLt_field_boundary a c f hf (v ++ be32 d) (be32 u32MAX)]
    by_cases he : v = val
    · simp [he, hbe0, hbeMAX, byteLt_irrefl]
    · simp [he, (byteLt_not_of_ne val v (Ne.symm he)).symm]
  case GreaterEqualThan =>
    simp only [rangeBounds, serIndexKey, opCompare, List.append_assoc, List.nil_append]
    rw [byteLt_append_same,
      byteLt_append_append v val (be32 d) (be32 0) hv,
      byteLt_field_boundary a c f hf (v ++ be32 d) (be32 u32MAX)]
    by_cases he : v = val
    · simp [he, hbe0, hbeMAX, byteLt_irrefl]
    · simp [he, hbe0, hbeMAX]

/-- Value slice of an index key: the bytes between the fixed prefix and the
trailing document-id suffix. -/
def keySlice (k : List Nat) : List Nat :=
  (k.drop indexKeyPreLen).take (k.length - U32_LEN - indexKeyPreLen)

/-- Document id decoded from the trailing 4 bytes of an index key. -/
def keyDocId (k : List Nat) : Nat :=
  (k.drop (k.length - U32_LEN)).foldl (fun acc b => acc * 256 + b) 0

/-- Document ids of the stored keys of the scanned field whose value slice
satisfies the true operator comparison: the reference result of a range scan. -/
def trueMatches (keys : List (List Nat)) (pre val : List Nat) (op : Operator) : Bitmap :=
  ((keys.filter fun k => startsWith k pre && opCompare op (keySlice k) val).map keyDocId).toFinset

theorem serIndexKeyPre_length (a c f : Nat) : (serIndexKeyPre a c f).length = indexKeyPreLen :=
  rfl

theorem foldl_be32 (d : Nat) (hd : d < 2 ^ 32) :
    (be32 d).foldl (fun acc b => acc * 256 + b) 0 = d := by
  simp only [be32, List.foldl]
  omega

theorem wfKey_length (a c f : Nat) (v : List Nat) (d : Nat) :
    (serIndexKeyPre a c f ++ (v ++ be32 d)).length = indexKeyPreLen + v.length + U32_LEN := by
  simp [serIndexKeyPre_length, be32_length, U32_LEN]
  rfl

theorem keySlice_wfKey (a c f : Nat) (v : List Nat) (d : Nat) :
    keySlice (serIndexKeyPre a c f ++ (v ++ be32 d)) = v := by
  unfold keySlice
  rw [wfKey_length]
  have h1 : indexKeyPreLen + v.length + U32_LEN - U32_LEN - indexKeyPreLen = v.length := by
    omega
  rw [h1]
  rw [show indexKeyPreLen = (serIndexKeyPre a c f).length from rfl]
  rw [List.drop_left]
  rw [show v.length = (v).length from rfl, List.take_left]

theorem keyDocId_wfKey (a c f : Nat) (v : List Nat) (d : Nat) (hd : d < 2 ^ 32) :
    keyDocId (serIndexKeyPre a c f ++ (v ++ be32 d)) = d := by
  unfold keyDocId
  rw [wfKey_length]
  have h1 : indexKeyPreLen + v.length + U32_LEN - U32_LEN = (serIndexKeyPre a c f ++ v).length := by
    simp [serIndexKeyPre_length]
  rw [h1, show serIndexKeyPre a c f ++ (v ++ be32 d) = (serIndexKeyPre a c f ++ v) ++ be32 d by
    simp [List.append_assoc]]
  rw [List.drop_left]
  exact foldl_be32 d hd

theorem sliceGet_wfKey (a c f : Nat) (v : List Nat) (d : Nat) :
    sliceGet (serIndexKeyPre a c f ++ (v ++ be32 d)) indexKeyPreLen
      ((serIndexKeyPre a c f ++ (v ++ be32 d)).length - U32_LEN) =
      some (keySlice (serIndexKeyPre a c f ++ (v ++ be32 d))) := by
  have hc : indexKeyPreLen ≤ (serIndexKeyPre a c f ++ (v ++ be32 d)).length - U32_LEN ∧
      (serIndexKeyPre a c f ++ (v ++ be32 d)).length - U32_LEN ≤
        (serIndexKeyPre a c f ++ (v ++ be32 d)).length := by
    rw [wfKey_length]
    omega
  unfold sliceGet keySlice
  rw [if_pos hc]

theorem deserializeBeU32_wfKey (a c f : Nat) (v : List Nat) (d : Nat) (hd : d < 2 ^ 32) :
    deserializeBeU32 (serIndexKeyPre a c f ++ (v ++ be32 d))
      ((serIndexKeyPre a c f ++ (v ++ be32 d)).length - U32_LEN) = .ok d := by
  have hc : (serIndexKeyPre a c f ++ (v ++ be32 d)).length - U32_LEN + U32_LEN ≤
      (serIndexKeyPre a c f ++ (v ++ be32 d)).length := by
    rw [wfKey_length]
    omega
  unfold deserializeBeU32
  rw [if_pos hc]
  have h1 : (serIndexKeyPre a c f ++ (v ++ be32 d)).length - U32_LEN =
      (serIndexKeyPre a c f ++ v).length := by
    rw [wfKey_length]
    simp [serIndexKeyPre_length]
  rw [h1, show serIndexKeyPre a c f ++ (v ++ be32 d) = (serIndexKeyPre a c f ++ v) ++ be32 d by
    simp [List.append_assoc]]
  rw [List.drop_left, List.take_of_length_le (by simp [be32_length, U32_LEN])]
  rw [foldl_be32 d hd]

/-- The scan callback loop over a sorted, in-range, well-formed key sequence
collects exactly the document ids of the prefixed keys passing the re-test:
stopping at the first key outside the field's key space loses nothing because
such a key sorts above every remaining prefixed key. -/
theorem scanFold_wf (a c f : Nat) (val bs : List Nat) (op : Operator) :
    ∀ (L : List (List Nat)) (bm : Bitmap),
      List.Pairwise (fun x y => byteLt x y = true) L →
      (∀ k ∈ L, byteLt k (serIndexKeyPre a c f ++ bs) = false) →
      (∀ k ∈ L, startsWith k (serIndexKeyPre a c f) = true →
        ∃ v d, k = serIndexKeyPre a c f ++ (v ++ be32 d) ∧ v.length = val.length ∧ d < u32MAX) →
      scanFold (serIndexKeyPre a c f) val op L bm =
        .ok (bm ∪ ((L.filter fun k =>
          startsWith k (serIndexKeyPre a c f) && opCompare op (keySlice k) val).map
            keyDocId).toFinset) := by
  intro L
  induction L with
  | nil =>
    intro bm _ _ _
    simp [scanFold]
  | cons k L' ih =>
    intro bm hsort hge hwf
    rw [List.pairwise_cons] at hsort
    obtain ⟨hkL, hsort'⟩ := hsort
    have hge' : ∀ k' ∈ L', byteLt k' (serIndexKeyPre a c f ++ bs) = false :=
      fun k' hk' => hge k' (List.mem_cons_of_mem _ hk')
    have hwf' : ∀ k' ∈ L', startsWith k' (serIndexKeyPre a c f) = true →
        ∃ v d, k' = serIndexKeyPre a c f ++ (v ++ be32 d) ∧ v.length = val.length ∧ d < u32MAX :=
      fun k' hk' => hwf k' (List.mem_cons_of_mem _ hk')
    cases hsw : startsWith k (serIndexKeyPre a c f) with
    | false =>
      have hnone : ∀ k' ∈ k :: L',
          ¬((startsWith k' (serIndexKeyPre a c f) && opCompare op (keySlice k') val) = true) := by
        intro k' hk'
        rcases List.mem_cons.mp hk' with rfl | hk'
        · simp [hsw]
        · cases hsw2 : startsWith k' (serIndexKeyPre a c f) with
          | false => simp
          | true =>
            obtain ⟨v, d, hkeq, -, -⟩ := hwf' k' hk' hsw2
            have h1 : byteLt (serIndexKeyPre a c f ++ (v ++ be32 d)) k = true :=
              byteLt_all_of_not_startsWith (serIndexKeyPre a c f) k bs (v ++ be32 d)
                (hge k (List.mem_cons_self _ _)) hsw
            rw [← hkeq] at h1
            have h2 := hkL k' hk'
            simp [byteLt_asymm k' k h1] at h2
      rw [List.filter_eq_nil_iff.mpr hnone]
      simp [scanFold, hsw]
    | true =>
      obtain ⟨v, d, hk, hvlen, hd⟩ := hwf k (List.mem_cons_self k L') hsw
      have hd32 : d < 2 ^ 32 := by
        have : u32MAX < 2 ^ 32 := by norm_num [u32MAX]
        omega
      subst hk
      cases hcmp : opCompare op v val with
      | true =>
        simp only [scanFold, hsw, Bool.not_true, Bool.false_eq_true, if_false,
          sliceGet_wfKey a c f v d, keySlice_wfKey a c f v d, hcmp, if_true,
          deserializeBeU32_wfKey a c f v d hd32, List.filter_cons, Bool.and_self,
          List.map_cons, List.toFinset_cons, keyDocId_wfKey a c f v d hd32]
        rw [ih (insert d bm) hsort' hge' hwf']
        simp [Finset.insert_union, Finset.union_insert]
      | false =>
        simp only [scanFold, hsw, Bool.not_true, Bool.false_eq_true, if_false,
          sliceGet_wfKey a c f v d, keySlice_wfKey a c f v d, hcmp, if_false,
          List.filter_cons, Bool.and_false]
        rw [ih bm hsort' hge' hwf']

theorem rangeBounds_fst_pre (a c f : Nat) (val : List Nat) (op : Operator) :
    ∃ bs, (rangeBounds a c f val op).1 = serIndexKeyPre a c f ++ bs := by
  cases op
  case LowerThan => exact ⟨be32 0, by simp [rangeBounds, serIndexKey]⟩
  case LowerEqualThan => exact ⟨be32 0, by simp [rangeBounds, serIndexKey]⟩
  case GreaterThan => exact ⟨val ++ be32 u32MAX, by simp [rangeBounds, serIndexKey]⟩
  case GreaterEqualThan => exact ⟨val ++ be32 0, by simp [rangeBounds, serIndexKey]⟩
  case Equal => exact ⟨val ++ be32 0, by simp [rangeBounds, serIndexKey]⟩

/-- Exactness of the range scan on a sorted store whose keys for the scanned
field are well-formed with values of the match value's length and document ids
below `u32::MAX`. -/
theorem rangeToBitmap_exact (keys : List (List Nat)) (a c f : Nat) (val : List Nat)
    (op : Operator)
    (hsort : List.Pairwise (fun x y => byteLt x y = true) keys)
    (hwf : ∀ k ∈ keys, startsWith k (serIndexKeyPre a c f) = true →
      ∃ v d, k = serIndexKeyPre a c f ++ (v ++ be32 d) ∧ v.length = val.length ∧ d < u32MAX)
    (hf : f < 255) :
    rangeToBitmap keys a c f val op =
      .ok (if trueMatches keys (serIndexKeyPre a c f) val op = ∅ then none
           else some (trueMatches keys (serIndexKeyPre a c f) val op)) := by
  obtain ⟨bs, hbs⟩ := rangeBounds_fst_pre a c f val op
  have hge : ∀ k ∈ iterateRange keys (rangeBounds a c f val op).1 (rangeBounds a c f val op).2,
      byteLt k (serIndexKeyPre a c f ++ bs) = false := by
    intro k hk
    rw [iterateRange, List.mem_filter, Bool.and_eq_true, Bool.not_eq_true'] at hk
    rw [← hbs]
    exact hk.2.1
  have hL := scanFold_wf a c f val bs op
    (iterateRange keys (rangeBounds a c f val op).1 (rangeBounds a c f val op).2) ∅
    (hsort.filter _) hge
    (fun k hk => hwf k (List.mem_filter.mp hk).1)
  have hQP : ∀ k ∈ keys, ((startsWith k (serIndexKeyPre a c f) && opCompare op (keySlice k) val)
      && (!byteLt k (rangeBounds a c f val op).1 && byteLt k (rangeBounds a c f val op).2)) =
      (startsWith k (serIndexKeyPre a c f) && opCompare op (keySlice k) val) := by
    intro k hk
    cases hsw : startsWith k (serIndexKeyPre a c f) with
    | false => simp
    | true =>
      obtain ⟨v, d, hkeq, hvlen, hd⟩ := hwf k hk hsw
      subst hkeq
      rw [keySlice_wfKey a c f v d]
      cases hcmp : opCompare op v val with
      | false => simp
      | true =>
        have hin := inRange_eq_opCompare a c f val v d op hvlen hd hf
        rw [hcmp] at hin
        simp [hin]
  have hM : ((iterateRange keys (rangeBounds a c f val op).1
        (rangeBounds a c f val op).2).filter
      (fun k => startsWith k (serIndexKeyPre a c f) && opCompare op (keySlice k) val)) =
      keys.filter (fun k => startsWith k (serIndexKeyPre a c f) && opCompare op (keySlice k) val)
      := by
    unfold iterateRange
    rw [List.filter_filter]
    exact List.filter_congr hQP
  simp only [rangeToBitmap]
  rw [hL, hM, Finset.empty_union]
  rfl

/-- C2 (amended): under the iterate contract, over a store whose keys are in
ascending order and whose keys for the scanned (account, collection, field)
are well-formed index keys carrying values of the same byte length as the
comparison value and document ids below `u32::MAX` (with `field < 255`),
`range_to_bitmap` returns exactly the set of document ids whose indexed value
satisfies the operator under the true byte-string comparison (`None` when that
set is empty); in particular it never returns a document whose indexed value
fails the re-test. Without the equal-length condition the constructed range
can miss matching keys (see the counterexample). -/
theorem c2_range_scan_exact (keys : List (List Nat)) (a c f : Nat) (val : List Nat)
    (op : Operator)
    (hsort : List.Pairwise (fun x y => byteLt x y = true) keys)
    (hwf : ∀ k ∈ keys, startsWith k (serIndexKeyPre a c f) = true →
      ∃ v d, k = serIndexKeyPre a c f ++ (v ++ be32 d) ∧ v.length = val.length ∧ d < u32MAX)
    (hf : f < 255) :
    (rangeToBitmap keys a c f val op =
      .ok (if trueMatches keys (serIndexKeyPre a c f) val op = ∅ then none
           else some (trueMatches keys (serIndexKeyPre a c f) val op))) ∧
    ∀ dd : Nat, dd ∈ trueMatches keys (serIndexKeyPre a c f) val op ↔
      ∃ v : List Nat, v.length = val.length ∧ dd < u32MAX ∧
        (serIndexKeyPre a c f ++ (v ++ be32 dd)) ∈ keys ∧ opCompare op v val = true := by
  have hmax32 : u32MAX < 2 ^ 32 := by norm_num [u32MAX]
  refine ⟨rangeToBitmap_exact keys a c f val op hsort hwf hf, fun dd => ?_⟩
  unfold trueMatches
  rw [List.mem_toFinset, List.mem_map]
  constructor
  · rintro ⟨k, hkf, rfl⟩
    rw [List.mem_filter, Bool.and_eq_true] at hkf
    obtain ⟨hk, hsw, hcmp⟩ := hkf
    obtain ⟨v, d, hkeq, hvlen, hd⟩ := hwf k hk hsw
    subst hkeq
    rw [keySlice_wfKey a c f v d] at hcmp
    rw [keyDocId_wfKey a c f v d (by omega)]
    exact ⟨v, hvlen, hd, hk, hcmp⟩
  · rintro ⟨v, hvlen, hdd, hk, hcmp⟩
    refine ⟨serIndexKeyPre a c f ++ (v ++ be32 dd), ?_, keyDocId_wfKey a c f v dd (by omega)⟩
    rw [List.mem_filter, Bool.and_eq_true, keySlice_wfKey a c f v dd]
    exact ⟨hk, startsWith_append _ _, hcmp⟩

/-- C2 counterexample: the store holds the single key for value `[5, 0]` of
document 7; `[5, 0]` truly satisfies `GreaterThan [5]`, yet the scan returns
`None` because the key sorts below the constructed begin bound
`prefix ++ [5] ++ 0xFFFFFFFF`. -/
theorem c2_counterexample :
    rangeToBitmap [serIndexKeyPre 0 0 0 ++ ([5, 0] ++ be32 7)] 0 0 0 [5]
        Operator.GreaterThan = .ok none ∧
    opCompare Operator.GreaterThan [5, 0] [5] = true := ⟨rfl, rfl⟩

/-- The spec's range-scan example store: values `[1]`, `[5]`, `[10]` indexed
for documents 1, 2, 3 under account 0, collection 0, field 0. -/
def c2Keys : List (List Nat) :=
  [serIndexKeyPre 0 0 0 ++ ([1] ++ be32 1),
   serIndexKeyPre 0 0 0 ++ ([5] ++ be32 2),
   serIndexKeyPre 0 0 0 ++ ([10] ++ be32 3)]

theorem c2_witness :
    rangeToBitmap c2Keys 0 0 0 [5] Operator.Equal = .ok (some {2}) ∧
    rangeToBitmap c2Keys 0 0 0 [5] Operator.LowerThan = .ok (some {1}) ∧
    rangeToBitmap c2Keys 0 0 0 [5] Operator.GreaterEqualThan = .ok (some {2, 3}) := by
  have hsort : List.Pairwise (fun x y => byteLt x y = true) c2Keys := by decide
  have hwf : ∀ k ∈ c2Keys, startsWith k (serIndexKeyPre 0 0 0) = true →
      ∃ v d, k = serIndexKeyPre 0 0 0 ++ (v ++ be32 d) ∧ v.length = ([5] : List Nat).length ∧
        d < u32MAX := by
    intro k hk _
    rcases List.mem_cons.mp hk with rfl | hk
    · exact ⟨[1], 1, rfl, rfl, by norm_num [u32MAX]⟩
    rcases List.mem_cons.mp hk with rfl | hk
    · exact ⟨[5], 2, rfl, rfl, by norm_num [u32MAX]⟩
    rcases List.mem_cons.mp hk with rfl | hk
    · exact ⟨[10], 3, rfl, rfl, by norm_num [u32MAX]⟩
    · simp at hk
  refine ⟨?_, ?_, ?_⟩
  · have h := (c2_range_scan_exact c2Keys 0 0 0 [5] Operator.Equal hsort hwf
      (by norm_num)).1
    rw [h]
    have e : trueMatches c2Keys (serIndexKeyPre 0 0 0) [5] Operator.Equal = {2} := by decide
    rw [e]
    rfl
  · have h := (c2_range_scan_exact c2Keys 0 0 0 [5] Operator.LowerThan hsort hwf
      (by norm_num)).1
    rw [h]
    have e : trueMatches c2Keys (serIndexKeyPre 0 0 0) [5] Operator.LowerThan = {1} := by decide
    rw [e]
    rfl
  · have h := (c2_range_scan_exact c2Keys 0 0 0 [5] Operator.GreaterEqualThan hsort hwf
      (by norm_num)).1
    rw [h]
    have e : trueMatches c2Keys (serIndexKeyPre 0 0 0) [5] Operator.GreaterEqualThan = {2, 3}
      := by decide
    rw [e]
    rfl

/-- The scan loop aborts with the corruption error as soon as it reaches a
prefixed key too short to hold the trailing document-id suffix, after passing
over any number of long-enough prefixed keys. -/
theorem scanFold_short_key (pre val : List Nat) (op : Operator) (k : List Nat)
    (L2 : List (List Nat)) (hk : startsWith k pre = true)
    (hshort : k.length < indexKeyPreLen + U32_LEN) :
    ∀ (L1 : List (List Nat)) (bm : Bitmap),
      (∀ k' ∈ L1, startsWith k' pre = true ∧ indexKeyPreLen + U32_LEN ≤ k'.length) →
      scanFold pre val op (L1 ++ k :: L2) bm =
        .error (.InternalError "Invalid key found in index") := by
  intro L1
  induction L1 with
  | nil =>
    intro bm _
    have hnone : sliceGet k indexKeyPreLen (k.length - U32_LEN) = none := by
      unfold sliceGet
      rw [if_neg]
      simp only [indexKeyPreLen, U32_LEN] at hshort ⊢
      omega
    simp only [List.nil_append, scanFold, hk, Bool.not_true, Bool.false_eq_true, if_false,
      hnone]
  | cons k' L1' ih =>
    intro bm hclean
    obtain ⟨hsw', hlen'⟩ := hclean k' (List.mem_cons_self k' L1')
    have hclean' : ∀ x ∈ L1', startsWith x pre = true ∧ indexKeyPreLen + U32_LEN ≤ x.length :=
      fun x hx => hclean x (List.mem_cons_of_mem _ hx)
    have hsome : sliceGet k' indexKeyPreLen (k'.length - U32_LEN) =
        some ((k'.drop indexKeyPreLen).take (k'.length - U32_LEN - indexKeyPreLen)) := by
      unfold sliceGet
      rw [if_pos]
      omega
    have hdeser : deserializeBeU32 k' (k'.length - U32_LEN) =
        .ok (((k'.drop (k'.length - U32_LEN)).take U32_LEN).foldl
          (fun acc b => acc * 256 + b) 0) := by
      unfold deserializeBeU32
      rw [if_pos]
      omega
    rw [List.cons_append]
    simp only [scanFold, hsw', Bool.not_true, Bool.false_eq_true, if_false, hsome, hdeser]
    cases hcmp : opCompare op ((k'.drop indexKeyPreLen).take (k'.length - U32_LEN -
        indexKeyPreLen)) val with
    | true =>
      simp only [if_true]
      exact ih _ hclean'
    | false =>
      simp only [Bool.false_eq_true, if_false]
      exact ih _ hclean'


/-- C5: during a range scan, a visited key that still starts with the
(account, collection, field) prefix but is too short to hold the fixed 4-byte
big-endian document-id suffix after that prefix aborts the whole evaluation
with the internal corruption error "Invalid key found in index": it is never
silently skipped, never contributes to the result bitmap, and the error
propagates through `filter`. -/
theorem c5_short_key_aborts (keys : List (List Nat)) (a c f : Nat) (val : List Nat)
    (op : Operator) (L1 L2 : List (List Nat)) (k : List Nat)
    (hsplit : iterateRange keys (rangeBounds a c f val op).1 (rangeBounds a c f val op).2 =
      L1 ++ k :: L2)
    (hclean : ∀ k' ∈ L1, startsWith k' (serIndexKeyPre a c f) = true ∧
      indexKeyPreLen + U32_LEN ≤ k'.length)
    (hk : startsWith k (serIndexKeyPre a c f) = true)
    (hshort : k.length < indexKeyPreLen + U32_LEN) :
    rangeToBitmap keys a c f val op =
      .error (.InternalError "Invalid key found in index") ∧
    ∀ store : StoreModel, store.keys = keys →
      store.filter a c [.MatchValue f op val] =
        .error (.InternalError "Invalid key found in index") := by
  have herr : rangeToBitmap keys a c f val op =
      .error (.InternalError "Invalid key found in index") := by
    simp only [rangeToBitmap]
    rw [hsplit, scanFold_short_key (serIndexKeyPre a c f) val op k L2 hk hshort L1 ∅ hclean]
  refine ⟨herr, fun store hkeys => ?_⟩
  simp [StoreModel.filter, StoreModel.filterCounted, filterLoop, resolveLeaf, hkeys, herr,
    Except.map]

theorem c5_witness :
    rangeToBitmap [serIndexKeyPre 0 0 0 ++ [5]] 0 0 0 [] Operator.GreaterEqualThan =
      .error (.InternalError "Invalid key found in index") :=
  (c5_short_key_aborts [serIndexKeyPre 0 0 0 ++ [5]] 0 0 0 [] Operator.GreaterEqualThan
    [] [] (serIndexKeyPre 0 0 0 ++ [5]) (by decide) (by simp) (by decide) (by decide)).1

end StoreQuery
